import Mathlib

/-!
Shallow embedding of `pladder/snusk.py` (class `SnuskDb`).

The sqlite tables `nouns` and `inbetweenies` are modelled as Lean lists of
rows; a row's position in the list plays the role of its `rowid`.  Each
store operation from the source is translated to a pure function on this
state; operations that consult `random.choice` or sqlite's
`ORDER BY RANDOM() LIMIT 1` take the random outcome as an explicit extra
argument (an index into the eligible rows, a coin, or a choice index).

One point of sqlite semantics matters for `_random_parts`: the CTE
`random_noun` (a single random eligible rowid) is referenced four times in
the main query.  SQLite materialises a CTE that is referenced more than
once, computing it a single time — verified against sqlite 3.40.1: over
repeated runs with five eligible nouns, the four noun aliases always
resolved to the same row, so the returned tuple is always
`[n.prefix, n.suffix, c, n.prefix, n.suffix]` for a single random noun `n`
and a single random connector `c`.  The embedding below reproduces that
actual behaviour (one noun index, one connector index).
-/

/-- Row of the `nouns` table: source columns `prefix`, `suffix`, `score`.
(`prefix` is a Lean keyword, so the first field is named `pre`.) -/
structure Noun where
  pre : String
  suffix : String
  score : Int
deriving DecidableEq

/-- Row of the `inbetweenies` table: source columns `inbetweeny`, `score`. -/
structure Inbetweeny where
  inbetweeny : String
  score : Int
deriving DecidableEq

/-- The database state: the two tables owned by `SnuskDb`. -/
structure SnuskDb where
  nouns : List Noun
  inbetweenies : List Inbetweeny
deriving DecidableEq

/-- `SKIP_SCORE = -3`: "Words with scores lower than or equal to this will
not be included in random picks". -/
def SKIP_SCORE : Int := -3

/-- Key test used by the noun queries (`WHERE prefix = ? AND suffix = ?`). -/
def noun_key (p s : String) (n : Noun) : Bool :=
  n.pre == p && n.suffix == s

/-- Key test used by the inbetweeny queries (`WHERE inbetweeny = ?`). -/
def ib_key (w : String) (c : Inbetweeny) : Bool :=
  c.inbetweeny == w

/-- The rows of `nouns` satisfying `score > :skip_score` (the CTE
`random_noun` draws from exactly these rows). -/
def eligibleNouns (db : SnuskDb) : List Noun :=
  db.nouns.filter (fun n => SKIP_SCORE < n.score)

/-- The rows of `inbetweenies` satisfying `score > :skip_score`. -/
def eligibleInbetweenies (db : SnuskDb) : List Inbetweeny :=
  db.inbetweenies.filter (fun c => SKIP_SCORE < c.score)

/-- `_random_parts`: `ni` is the random outcome of the `random_noun` CTE
(an index into the eligible nouns) and `ci` that of `random_inbetweeny`.
The CTE is materialised once, so the one noun row serves the aliases
`a`, `b`, `d`, `e`; the query yields
`a.prefix, b.suffix, c.inbetweeny, d.prefix, e.suffix`.  When either
eligible set is empty the query returns no row and `list(c.fetchone())`
raises (`fetchone()` is `None`): modelled by `none`. -/
def random_parts (db : SnuskDb) (ni ci : Nat) : Option (List String) :=
  match (eligibleNouns db).get? ni, (eligibleInbetweenies db).get? ci with
  | some n, some c => some [n.pre, n.suffix, c.inbetweeny, n.pre, n.suffix]
  | _, _ => none

/-- `_format_parts`: `"{}{} {} {}{}".format(*parts)`.  Every caller passes a
five-element list; other shapes do not occur. -/
def format_parts : List String → String
  | a :: b :: c :: d :: e :: _ => a ++ b ++ " " ++ c ++ " " ++ d ++ e
  | _ => ""

/-- `snusk`: format one fresh random draw. -/
def snusk (db : SnuskDb) (ni ci : Nat) : Option String :=
  (random_parts db ni ci).map format_parts

/-- `directed_snusk`: `k` is the outcome of `random.choice([0, 1, 3, 4])`
(an index into that four-element list).  Slots 0 and 3 receive `target`
verbatim, slots 1 and 4 receive `target + "ern"`. -/
def directed_snusk (db : SnuskDb) (target : String) (ni ci : Nat)
    (k : Fin 4) : Option String :=
  (random_parts db ni ci).map (fun parts =>
    let i := [0, 1, 3, 4].getD k.val 0
    let part := if i = 0 ∨ i = 3 then target else target ++ "ern"
    format_parts (parts.set i part))

/-- `example_snusk`: `coin` is the outcome of
`random.choice([False, True])`.  On `true`: slot 0 := `a`, slot 4 := `b`;
on `false`: slot 1 := `b`, slot 3 := `a`. -/
def example_snusk (db : SnuskDb) (a b : String) (ni ci : Nat)
    (coin : Bool) : Option String :=
  (random_parts db ni ci).map (fun parts =>
    if coin then format_parts ((parts.set 0 a).set 4 b)
    else format_parts ((parts.set 1 b).set 3 a))

/-- `add_noun`: `INSERT INTO nouns (prefix, suffix) VALUES (?, ?)` with the
`UNIQUE(prefix, suffix)` constraint; an `IntegrityError` (duplicate key) is
caught and reported as `false`.  The new row gets the default score 0. -/
def add_noun (db : SnuskDb) (p s : String) : SnuskDb × Bool :=
  if db.nouns.any (noun_key p s) then (db, false)
  else ({ db with nouns := db.nouns ++ [⟨p, s, 0⟩] }, true)

/-- `add_inbetweeny`: same contract, keyed on the unique `inbetweeny`
column. -/
def add_inbetweeny (db : SnuskDb) (w : String) : SnuskDb × Bool :=
  if db.inbetweenies.any (ib_key w) then (db, false)
  else ({ db with inbetweenies := db.inbetweenies ++ [⟨w, 0⟩] }, true)

/-- `find_noun`: `SELECT prefix, suffix FROM nouns WHERE ? IN (prefix, suffix)`. -/
def find_noun (db : SnuskDb) (w : String) : List (String × String) :=
  (db.nouns.filter (fun n => n.pre == w || n.suffix == w)).map
    (fun n => (n.pre, n.suffix))

/-- `add_noun_score`: `UPDATE nouns SET score = score + ? WHERE prefix = ?
AND suffix = ?` (every matching row), then `SELECT score` for the same key
and return the first row's score, or `None` when no row matches. -/
def add_noun_score (db : SnuskDb) (p s : String) (delta : Int) :
    SnuskDb × Option Int :=
  let nouns := db.nouns.map (fun n =>
    if noun_key p s n then { n with score := n.score + delta } else n)
  ({ db with nouns := nouns },
   (nouns.find? (noun_key p s)).map Noun.score)

/-- `add_inbetweeny_score`: analogous, keyed on `inbetweeny`. -/
def add_inbetweeny_score (db : SnuskDb) (w : String) (delta : Int) :
    SnuskDb × Option Int :=
  let ibs := db.inbetweenies.map (fun c =>
    if ib_key w c then { c with score := c.score + delta } else c)
  ({ db with inbetweenies := ibs },
   (ibs.find? (ib_key w)).map Inbetweeny.score)

/-- The store `_setup` leaves in a fresh database: the seed rows
`('frukt', 'frukten')` and `('i')`, each with the default score 0. -/
def initial_db : SnuskDb :=
  { nouns := [⟨"frukt", "frukten", 0⟩], inbetweenies := [⟨"i", 0⟩] }

/-! ### Score lookup and delta sequences (C3, C5) -/

/-- The stored score of the first noun row matching `(p, s)`
(`SELECT score FROM nouns WHERE prefix = ? AND suffix = ?` + `fetchone`). -/
def noun_score (db : SnuskDb) (p s : String) : Option Int :=
  (db.nouns.find? (noun_key p s)).map Noun.score

/-- The stored score of the first inbetweeny row matching `w`. -/
def ib_score (db : SnuskDb) (w : String) : Option Int :=
  (db.inbetweenies.find? (ib_key w)).map Inbetweeny.score

/-- Run a sequence of `add_noun_score` calls on one key, collecting the
value returned by each call. -/
def run_noun_deltas (db : SnuskDb) (p s : String) :
    List Int → SnuskDb × List (Option Int)
  | [] => (db, [])
  | d :: ds =>
    let r := add_noun_score db p s d
    let rest := run_noun_deltas r.1 p s ds
    (rest.1, r.2 :: rest.2)

/-- Run a sequence of `add_inbetweeny_score` calls on one key. -/
def run_ib_deltas (db : SnuskDb) (w : String) :
    List Int → SnuskDb × List (Option Int)
  | [] => (db, [])
  | d :: ds =>
    let r := add_inbetweeny_score db w d
    let rest := run_ib_deltas r.1 w ds
    (rest.1, r.2 :: rest.2)

/-- The expected return values of a delta sequence starting from score `k`:
each call reports the running partial sum. -/
def running_scores (k : Int) : List Int → List (Option Int)
  | [] => []
  | d :: ds => some (k + d) :: running_scores (k + d) ds


/-! ### Substring occurrence (used for C8) -/

/-- `starts_with needle hay`: `needle` is a leading segment of `hay`. -/
def starts_with : List Char → List Char → Bool
  | [], _ => true
  | _ :: _, [] => false
  | a :: as, b :: bs => a == b && starts_with as bs

/-- `has_sub needle hay`: `needle` occurs contiguously inside `hay`. -/
def has_sub (needle : List Char) : List Char → Bool
  | [] => starts_with needle []
  | b :: bs => starts_with needle (b :: bs) || has_sub needle bs

/-- Literal-substring test on strings. -/
def contains_str (needle hay : String) : Bool :=
  has_sub needle.data hay.data


/-! ### Concrete stores used in witnesses and counterexamples -/


/-- A store whose only noun has score below the threshold. -/
def no_elig_db : SnuskDb :=
  { nouns := [⟨"x", "y", -5⟩], inbetweenies := [⟨"i", 0⟩] }

/-- A store with two eligible nouns. -/
def db2 : SnuskDb :=
  { nouns := [⟨"a", "a1", 0⟩, ⟨"b", "b1", 0⟩], inbetweenies := [⟨"i", 0⟩] }

/-- The spec's end-to-end seeding: noun `("don", "donet")` at score 10 and
connector `"i"` at score 10 as the only entries. -/
def don_db : SnuskDb :=
  { nouns := [⟨"don", "donet", 10⟩], inbetweenies := [⟨"i", 10⟩] }

/-- A store reachable from the seeded one by three accepted inserts, in
which three distinct noun pairs share the prefix `"w"`. -/
def db3 : SnuskDb :=
  (add_noun (add_noun (add_noun initial_db "w" "a").1 "w" "b").1 "w" "c").1

example : random_parts initial_db 0 0 =
    some ["frukt", "frukten", "i", "frukt", "frukten"] := by decide

example : random_parts no_elig_db 0 0 = none := by decide

/-! ### C1: draws restricted to eligible fragments; empty subset fails -/

/-- C1: every tuple `_random_parts` returns is built from a noun row and an
inbetweeny row whose scores exceed `SKIP_SCORE`; and whenever the eligible
subset of either table is empty, the query yields no row and the operation
fails (returns `none`, the model of `list(None)` raising) instead of
returning a tuple. -/
theorem random_parts_eligible (db : SnuskDb) (ni ci : Nat) :
    (∀ parts, random_parts db ni ci = some parts →
      ∃ n ∈ db.nouns, ∃ c ∈ db.inbetweenies,
        SKIP_SCORE < n.score ∧ SKIP_SCORE < c.score ∧
        parts = [n.pre, n.suffix, c.inbetweeny, n.pre, n.suffix]) ∧
    ((eligibleNouns db = [] ∨ eligibleInbetweenies db = []) →
      random_parts db ni ci = none) := by
  constructor
  · intro parts h
    unfold random_parts at h
    cases hn : (eligibleNouns db).get? ni with
    | none => rw [hn] at h; cases h
    | some n =>
      cases hc : (eligibleInbetweenies db).get? ci with
      | none => rw [hn, hc] at h; cases h
      | some c =>
        rw [hn, hc] at h
        have hmemn : n ∈ eligibleNouns db := List.get?_mem hn
        have hmemc : c ∈ eligibleInbetweenies db := List.get?_mem hc
        rw [eligibleNouns, List.mem_filter] at hmemn
        rw [eligibleInbetweenies, List.mem_filter] at hmemc
        refine ⟨n, hmemn.1, c, hmemc.1, ?_, ?_, ?_⟩
        · simpa using hmemn.2
        · simpa using hmemc.2
        · cases h; rfl
  · intro h
    unfold random_parts
    rcases h with h | h
    · rw [h]; rfl
    · rw [h]
      cases (eligibleNouns db).get? ni <;> simp

/-- Witness for `random_parts_eligible`: on `no_elig_db` (whose only noun
scores -5) the draw fails; on `initial_db` the returned tuple comes from
eligible rows. -/
theorem random_parts_eligible_witness :
    random_parts no_elig_db 0 0 = none ∧
    (∃ n ∈ initial_db.nouns, ∃ c ∈ initial_db.inbetweenies,
      SKIP_SCORE < n.score ∧ SKIP_SCORE < c.score ∧
      ["frukt", "frukten", "i", "frukt", "frukten"] =
        [n.pre, n.suffix, c.inbetweeny, n.pre, n.suffix]) :=
  ⟨(random_parts_eligible no_elig_db 0 0).2 (Or.inl (by decide)),
   (random_parts_eligible initial_db 0 0).1 _ (by decide)⟩

/-! ### C2: the four noun references share a single materialised draw -/

/-- C2 (behaviour of the code, refuting four independent noun draws): on a
store with two eligible nouns, every possible outcome of `_random_parts` is
one of exactly two tuples, each drawn wholly from a single noun row — no
random outcome mixes two fragments across the four noun slots, because the
multiply-referenced CTE `random_noun` is materialised once. -/
theorem random_parts_single_fragment :
    ∀ ni ci : Nat,
      random_parts db2 ni ci = none ∨
      random_parts db2 ni ci = some ["a", "a1", "i", "a", "a1"] ∨
      random_parts db2 ni ci = some ["b", "b1", "i", "b", "b1"] := by
  intro ni ci
  match ni, ci with
  | 0, 0 => exact Or.inr (Or.inl rfl)
  | 1, 0 => exact Or.inr (Or.inr rfl)
  | 0, _ + 1 => exact Or.inl rfl
  | 1, _ + 1 => exact Or.inl rfl
  | _ + 2, _ => exact Or.inl rfl

/-- The score update keeps the key columns, so the key test is unchanged. -/
theorem noun_key_update (p s : String) (d : Int) (n : Noun) :
    noun_key p s
      (if noun_key p s n then { n with score := n.score + d } else n) =
    noun_key p s n := by
  split <;> rfl

/-- Inbetweeny version of `noun_key_update`. -/
theorem ib_key_update (w : String) (d : Int) (c : Inbetweeny) :
    ib_key w
      (if ib_key w c then { c with score := c.score + d } else c) =
    ib_key w c := by
  split <;> rfl

/-- The score update of `add_noun_score` commutes with `find?` on the same
key: updating every matching row and then finding the first match is
finding the first match and updating it. -/
theorem find?_map_noun_update (p s : String) (d : Int) (l : List Noun) :
    (l.map (fun n =>
        if noun_key p s n then { n with score := n.score + d } else n)).find?
      (noun_key p s) =
    (l.find? (noun_key p s)).map
      (fun n => { n with score := n.score + d }) := by
  induction l with
  | nil => rfl
  | cons a l ih =>
    rw [List.map_cons]
    by_cases h : noun_key p s a = true
    · have hfa :
          noun_key p s
            (if noun_key p s a then { a with score := a.score + d } else a) =
          true := by rw [noun_key_update]; exact h
      rw [List.find?_cons_of_pos _ hfa, List.find?_cons_of_pos _ h,
        Option.map_some', if_pos h]
    · have hfa :
          ¬ noun_key p s
            (if noun_key p s a then { a with score := a.score + d } else a) =
          true := by rw [noun_key_update]; exact h
      rw [List.find?_cons_of_neg _ hfa, List.find?_cons_of_neg _ h, ih]

/-- Inbetweeny version of `find?_map_noun_update`. -/
theorem find?_map_ib_update (w : String) (d : Int) (l : List Inbetweeny) :
    (l.map (fun c =>
        if ib_key w c then { c with score := c.score + d } else c)).find?
      (ib_key w) =
    (l.find? (ib_key w)).map
      (fun c => { c with score := c.score + d }) := by
  induction l with
  | nil => rfl
  | cons a l ih =>
    rw [List.map_cons]
    by_cases h : ib_key w a = true
    · have hfa :
          ib_key w
            (if ib_key w a then { a with score := a.score + d } else a) =
          true := by rw [ib_key_update]; exact h
      rw [List.find?_cons_of_pos _ hfa, List.find?_cons_of_pos _ h,
        Option.map_some', if_pos h]
    · have hfa :
          ¬ ib_key w
            (if ib_key w a then { a with score := a.score + d } else a) =
          true := by rw [ib_key_update]; exact h
      rw [List.find?_cons_of_neg _ hfa, List.find?_cons_of_neg _ h, ih]

/-- One `add_noun_score` call on a present key: returns the post-update
score and stores it. -/
theorem add_noun_score_step (db : SnuskDb) (p s : String) (d k : Int)
    (h : noun_score db p s = some k) :
    (add_noun_score db p s d).2 = some (k + d) ∧
    noun_score (add_noun_score db p s d).1 p s = some (k + d) := by
  cases hf : db.nouns.find? (noun_key p s) with
  | none => rw [noun_score, hf] at h; cases h
  | some n =>
    rw [noun_score, hf, Option.map_some'] at h
    injection h with h
    have key :
        ((db.nouns.map (fun n =>
            if noun_key p s n then { n with score := n.score + d }
            else n)).find? (noun_key p s)).map Noun.score =
          some (k + d) := by
      rw [find?_map_noun_update, hf, Option.map_some', Option.map_some']
      show some (n.score + d) = some (k + d)
      rw [h]
    exact ⟨key, key⟩

/-- One `add_inbetweeny_score` call on a present key. -/
theorem add_ib_score_step (db : SnuskDb) (w : String) (d k : Int)
    (h : ib_score db w = some k) :
    (add_inbetweeny_score db w d).2 = some (k + d) ∧
    ib_score (add_inbetweeny_score db w d).1 w = some (k + d) := by
  cases hf : db.inbetweenies.find? (ib_key w) with
  | none => rw [ib_score, hf] at h; cases h
  | some c =>
    rw [ib_score, hf, Option.map_some'] at h
    injection h with h
    have key :
        ((db.inbetweenies.map (fun c =>
            if ib_key w c then { c with score := c.score + d }
            else c)).find? (ib_key w)).map Inbetweeny.score =
          some (k + d) := by
      rw [find?_map_ib_update, hf, Option.map_some', Option.map_some']
      show some (c.score + d) = some (k + d)
      rw [h]
    exact ⟨key, key⟩

/-- Additivity over a delta sequence, noun table. -/
theorem run_noun_deltas_spec (p s : String) (ds : List Int) :
    ∀ (db : SnuskDb) (k : Int), noun_score db p s = some k →
      noun_score (run_noun_deltas db p s ds).1 p s = some (k + ds.sum) ∧
      (run_noun_deltas db p s ds).2 = running_scores k ds := by
  induction ds with
  | nil => intro db k h; simpa [run_noun_deltas, running_scores] using h
  | cons d ds ih =>
    intro db k h
    obtain ⟨hret, hpost⟩ := add_noun_score_step db p s d k h
    obtain ⟨ih1, ih2⟩ := ih (add_noun_score db p s d).1 (k + d) hpost
    refine ⟨?_, ?_⟩
    · rw [run_noun_deltas, ih1, List.sum_cons, add_assoc]
    · rw [run_noun_deltas, running_scores, hret, ih2]

/-- Additivity over a delta sequence, inbetweeny table. -/
theorem run_ib_deltas_spec (w : String) (ds : List Int) :
    ∀ (db : SnuskDb) (k : Int), ib_score db w = some k →
      ib_score (run_ib_deltas db w ds).1 w = some (k + ds.sum) ∧
      (run_ib_deltas db w ds).2 = running_scores k ds := by
  induction ds with
  | nil => intro db k h; simpa [run_ib_deltas, running_scores] using h
  | cons d ds ih =>
    intro db k h
    obtain ⟨hret, hpost⟩ := add_ib_score_step db w d k h
    obtain ⟨ih1, ih2⟩ := ih (add_inbetweeny_score db w d).1 (k + d) hpost
    refine ⟨?_, ?_⟩
    · rw [run_ib_deltas, ih1, List.sum_cons, add_assoc]
    · rw [run_ib_deltas, running_scores, hret, ih2]

/-- C3: for a fragment present in the store, any finite sequence of deltas
leaves its score at the initial score plus the sum of the deltas, and each
call returns the score as it stands after that call's update (the running
partial sums).  Both score-adjustment operations satisfy this. -/
theorem score_additivity (db : SnuskDb) (p s w : String)
    (ds es : List Int) (k m : Int)
    (hn : noun_score db p s = some k) (hc : ib_score db w = some m) :
    (noun_score (run_noun_deltas db p s ds).1 p s = some (k + ds.sum) ∧
     (run_noun_deltas db p s ds).2 = running_scores k ds) ∧
    (ib_score (run_ib_deltas db w es).1 w = some (m + es.sum) ∧
     (run_ib_deltas db w es).2 = running_scores m es) :=
  ⟨run_noun_deltas_spec p s ds db k hn, run_ib_deltas_spec w es db m hc⟩

/-- Witness for `score_additivity`: the seed rows of `initial_db` under
the delta sequences `[5, -2, 4]` and `[7, -10]`. -/
theorem score_additivity_witness :
    (noun_score (run_noun_deltas initial_db "frukt" "frukten" [5, -2, 4]).1
        "frukt" "frukten" = some (0 + [5, -2, 4].sum) ∧
     (run_noun_deltas initial_db "frukt" "frukten" [5, -2, 4]).2 =
        running_scores 0 [5, -2, 4]) ∧
    (ib_score (run_ib_deltas initial_db "i" [7, -10]).1 "i" =
        some (0 + [7, -10].sum) ∧
     (run_ib_deltas initial_db "i" [7, -10]).2 =
        running_scores 0 [7, -10]) :=
  score_additivity initial_db "frukt" "frukten" "i" [5, -2, 4] [7, -10] 0 0
    (by decide) (by decide)

/-! ### C4 / C10: insert-if-absent contract -/

/-- C4: `add_noun` returns `true` and stores the pair with score 0 when no
row carries that exact `(prefix, suffix)` pair; it returns `false` (a
normal value, not an exception — `IntegrityError` is caught) when the pair
is already present; and a second call with the same pair after any first
call returns `false`.  The analogous contract holds for `add_inbetweeny`,
keyed on its word. -/
theorem add_contract (db : SnuskDb) (p s w : String) :
    ((∀ n ∈ db.nouns, ¬(n.pre = p ∧ n.suffix = s)) →
      (add_noun db p s).2 = true ∧
      (⟨p, s, 0⟩ : Noun) ∈ (add_noun db p s).1.nouns) ∧
    ((∃ n ∈ db.nouns, n.pre = p ∧ n.suffix = s) →
      (add_noun db p s).2 = false) ∧
    (add_noun (add_noun db p s).1 p s).2 = false ∧
    ((∀ c ∈ db.inbetweenies, c.inbetweeny ≠ w) →
      (add_inbetweeny db w).2 = true ∧
      (⟨w, 0⟩ : Inbetweeny) ∈ (add_inbetweeny db w).1.inbetweenies) ∧
    ((∃ c ∈ db.inbetweenies, c.inbetweeny = w) →
      (add_inbetweeny db w).2 = false) ∧
    (add_inbetweeny (add_inbetweeny db w).1 w).2 = false := by
  refine ⟨?_, ?_, ?_, ?_, ?_, ?_⟩
  · intro h
    have habs : db.nouns.any (noun_key p s) = false := by
      simp only [List.any_eq_false]
      intro n hn
      simp only [noun_key, Bool.and_eq_true, beq_iff_eq, not_and]
      intro hp hs
      exact h n hn ⟨hp, hs⟩
    rw [add_noun, habs]
    simp
  · intro ⟨n, hn, hp, hs⟩
    have hany : db.nouns.any (noun_key p s) = true :=
      List.any_eq_true.mpr ⟨n, hn, by simp [noun_key, hp, hs]⟩
    rw [add_noun, hany]
    simp
  · rcases hany : db.nouns.any (noun_key p s) with _ | _
    · have h2 : ((add_noun db p s).1).nouns.any (noun_key p s) = true := by
        rw [add_noun, hany]
        simp [List.any_append, noun_key]
      rw [add_noun, h2]
      simp
    · have h1 : (add_noun db p s).1 = db := by
        rw [add_noun, hany]
        simp
      rw [h1, add_noun, hany]
      simp
  · intro h
    have habs : db.inbetweenies.any (ib_key w) = false := by
      simp only [List.any_eq_false]
      intro c hc
      simp only [ib_key, beq_iff_eq]
      exact h c hc
    rw [add_inbetweeny, habs]
    simp
  · intro ⟨c, hc, hw⟩
    have hany : db.inbetweenies.any (ib_key w) = true :=
      List.any_eq_true.mpr ⟨c, hc, by simp [ib_key, hw]⟩
    rw [add_inbetweeny, hany]
    simp
  · rcases hany : db.inbetweenies.any (ib_key w) with _ | _
    · have h2 :
          ((add_inbetweeny db w).1).inbetweenies.any (ib_key w) = true := by
        rw [add_inbetweeny, hany]
        simp [List.any_append, ib_key]
      rw [add_inbetweeny, h2]
      simp
    · have h1 : (add_inbetweeny db w).1 = db := by
        rw [add_inbetweeny, hany]
        simp
      rw [h1, add_inbetweeny, hany]
      simp

/-- Witness for `add_contract`: inserting the fresh pair
`("don", "donet")` and word `"och"` into the seeded store. -/
theorem add_contract_witness :
    ((add_noun initial_db "don" "donet").2 = true ∧
      (⟨"don", "donet", 0⟩ : Noun) ∈
        (add_noun initial_db "don" "donet").1.nouns) ∧
    (add_noun (add_noun initial_db "don" "donet").1 "don" "donet").2 =
      false ∧
    ((add_inbetweeny initial_db "och").2 = true ∧
      (⟨"och", 0⟩ : Inbetweeny) ∈
        (add_inbetweeny initial_db "och").1.inbetweenies) ∧
    (add_inbetweeny (add_inbetweeny initial_db "och").1 "och").2 = false := by
  have h := add_contract initial_db "don" "donet" "och"
  exact ⟨h.1 (by decide), h.2.2.1, h.2.2.2.1 (by decide), h.2.2.2.2.2⟩

/-! ### C5: score adjustment on an unknown key reports absence -/

/-- C5: `add_noun_score` on a `(prefix, suffix)` pair no stored row
carries returns `none` (the model of Python `None`), which is a value
distinct from any score — in particular from `some 0`; the same holds for
`add_inbetweeny_score` on an unknown word. -/
theorem adjust_score_absent (db : SnuskDb) (p s w : String) (d e : Int)
    (hn : ∀ n ∈ db.nouns, ¬(n.pre = p ∧ n.suffix = s))
    (hc : ∀ c ∈ db.inbetweenies, c.inbetweeny ≠ w) :
    (add_noun_score db p s d).2 = none ∧
    (add_noun_score db p s d).2 ≠ some 0 ∧
    (add_inbetweeny_score db w e).2 = none ∧
    (add_inbetweeny_score db w e).2 ≠ some 0 := by
  have hfn :
      (db.nouns.map (fun n =>
          if noun_key p s n then { n with score := n.score + d }
          else n)).find? (noun_key p s) = none := by
    rw [find?_map_noun_update]
    rw [List.find?_eq_none.mpr]
    · rfl
    · intro n hmem
      simp only [noun_key, Bool.and_eq_true, beq_iff_eq, not_and]
      intro hp hs
      exact hn n hmem ⟨hp, hs⟩
  have hfc :
      (db.inbetweenies.map (fun c =>
          if ib_key w c then { c with score := c.score + e }
          else c)).find? (ib_key w) = none := by
    rw [find?_map_ib_update]
    rw [List.find?_eq_none.mpr]
    · rfl
    · intro c hmem
      simp only [ib_key, beq_iff_eq]
      exact hc c hmem
  have h1 : (add_noun_score db p s d).2 = none := by
    show ((db.nouns.map (fun n =>
        if noun_key p s n then { n with score := n.score + d }
        else n)).find? (noun_key p s)).map Noun.score = none
    rw [hfn]
    rfl
  have h2 : (add_inbetweeny_score db w e).2 = none := by
    show ((db.inbetweenies.map (fun c =>
        if ib_key w c then { c with score := c.score + e }
        else c)).find? (ib_key w)).map Inbetweeny.score = none
    rw [hfc]
    rfl
  refine ⟨h1, ?_, h2, ?_⟩
  · rw [h1]; intro hcontra; cases hcontra
  · rw [h2]; intro hcontra; cases hcontra

/-- Witness for `adjust_score_absent`: the seeded store holds neither the
pair `("x", "y")` nor the word `"z"`. -/
theorem adjust_score_absent_witness :
    (add_noun_score initial_db "x" "y" 1).2 = none ∧
    (add_noun_score initial_db "x" "y" 1).2 ≠ some 0 ∧
    (add_inbetweeny_score initial_db "z" 1).2 = none ∧
    (add_inbetweeny_score initial_db "z" 1).2 ≠ some 0 :=
  adjust_score_absent initial_db "x" "y" "z" 1 1 (by decide) (by decide)

/-! ### C10: a rejected insert leaves the store unchanged -/

/-- C10: when `add_noun` or `add_inbetweeny` returns `false` (duplicate
key), the database state it returns is exactly the state it was given —
no fragment is added, removed, or rescored. -/
theorem add_duplicate_unchanged (db : SnuskDb) (p s w : String) :
    ((add_noun db p s).2 = false → (add_noun db p s).1 = db) ∧
    ((add_inbetweeny db w).2 = false → (add_inbetweeny db w).1 = db) := by
  constructor
  · intro h
    rcases hany : db.nouns.any (noun_key p s) with _ | _
    · rw [add_noun, hany] at h
      simp at h
    · rw [add_noun, hany]
      simp
  · intro h
    rcases hany : db.inbetweenies.any (ib_key w) with _ | _
    · rw [add_inbetweeny, hany] at h
      simp at h
    · rw [add_inbetweeny, hany]
      simp

/-- Witness for `add_duplicate_unchanged`: re-inserting the seed rows of
`initial_db` rejects the duplicates and leaves the store intact. -/
theorem add_duplicate_unchanged_witness :
    (add_noun initial_db "frukt" "frukten").1 = initial_db ∧
    (add_inbetweeny initial_db "i").1 = initial_db :=
  ⟨(add_duplicate_unchanged initial_db "frukt" "frukten" "i").1 (by decide),
   (add_duplicate_unchanged initial_db "frukt" "frukten" "i").2 (by decide)⟩

/-! ### C6: the fixed template on the spec's end-to-end seeding -/

/-- C6: whenever the store's only eligible noun is `("don", "donet")` and
its only eligible connector is `"i"`, `snusk` succeeds and every random
outcome yields exactly `"dondonet i dondonet"` — the template fuses each
noun pair without separator and puts single spaces around the connector. -/
theorem snusk_don_store (db : SnuskDb)
    (hn : (eligibleNouns db).map (fun n => (n.pre, n.suffix)) =
      [("don", "donet")])
    (hc : (eligibleInbetweenies db).map Inbetweeny.inbetweeny = ["i"]) :
    snusk db 0 0 = some "dondonet i dondonet" ∧
    ∀ ni ci r, snusk db ni ci = some r → r = "dondonet i dondonet" := by
  have hnl : ∃ n : Noun,
      eligibleNouns db = [n] ∧ n.pre = "don" ∧ n.suffix = "donet" := by
    cases e : eligibleNouns db with
    | nil => rw [e] at hn; cases hn
    | cons a t =>
      rw [e] at hn
      simp only [List.map_cons, List.cons.injEq, Prod.mk.injEq,
        List.map_eq_nil_iff] at hn
      exact ⟨a, by rw [hn.2], hn.1.1, hn.1.2⟩
  have hcl : ∃ c : Inbetweeny,
      eligibleInbetweenies db = [c] ∧ c.inbetweeny = "i" := by
    cases e : eligibleInbetweenies db with
    | nil => rw [e] at hc; cases hc
    | cons a t =>
      rw [e] at hc
      simp only [List.map_cons, List.cons.injEq, List.map_eq_nil_iff] at hc
      exact ⟨a, by rw [hc.2], hc.1⟩
  obtain ⟨n, hn1, hnp, hns⟩ := hnl
  obtain ⟨c, hc1, hcw⟩ := hcl
  have hparts : ∀ ni ci : Nat,
      random_parts db ni ci = none ∨
      random_parts db ni ci =
        some ["don", "donet", "i", "don", "donet"] := by
    intro ni ci
    rw [random_parts, hn1, hc1]
    match ni, ci with
    | 0, 0 =>
      right
      simp [List.get?, hnp, hns, hcw]
    | 0, _ + 1 => left; rfl
    | _ + 1, 0 => left; rfl
    | _ + 1, _ + 1 => left; rfl
  constructor
  · rcases hparts 0 0 with h | h
    · rw [random_parts, hn1, hc1] at h; cases h
    · rw [snusk, h]
      rfl
  · intro ni ci r hr
    rcases hparts ni ci with h | h
    · rw [snusk, h] at hr; cases hr
    · rw [snusk, h] at hr
      injection hr with hr
      rw [← hr]
      rfl

/-- Witness for `snusk_don_store`: the spec's seeding `don_db` (scores 10). -/
theorem snusk_don_store_witness :
    snusk don_db 0 0 = some "dondonet i dondonet" :=
  (snusk_don_store don_db (by decide) (by decide)).1

/-! ### C7: the two branches of `example_snusk` -/

/-- C7: on a successful draw `[p, s, c, p, s]`, the `true` coin branch of
`example_snusk` sets slot 0 to `a` and slot 4 to `b`, the `false` branch
sets slot 1 to `b` and slot 3 to `a` (the arguments swap slot roles), all
other slots keep their drawn values, and the result is the template applied
to the modified tuple; both coin outcomes are modelled, so each branch
occurs for some random outcome. -/
theorem example_snusk_branches (db : SnuskDb) (a b : String) (ni ci : Nat)
    (n : Noun) (c : Inbetweeny)
    (hn : (eligibleNouns db).get? ni = some n)
    (hc : (eligibleInbetweenies db).get? ci = some c) :
    example_snusk db a b ni ci true =
      some (a ++ n.suffix ++ " " ++ c.inbetweeny ++ " " ++ n.pre ++ b) ∧
    example_snusk db a b ni ci false =
      some (n.pre ++ b ++ " " ++ c.inbetweeny ++ " " ++ a ++ n.suffix) := by
  have hp : random_parts db ni ci =
      some [n.pre, n.suffix, c.inbetweeny, n.pre, n.suffix] := by
    rw [random_parts, hn, hc]
  constructor
  · rw [example_snusk, hp]
    rfl
  · rw [example_snusk, hp]
    rfl

/-- Witness for `example_snusk_branches`: the seeded store with arguments
`("don", "donet")`, exercising both branches. -/
theorem example_snusk_branches_witness :
    example_snusk initial_db "don" "donet" 0 0 true =
      some ("don" ++ "frukten" ++ " " ++ "i" ++ " " ++ "frukt" ++ "donet") ∧
    example_snusk initial_db "don" "donet" 0 0 false =
      some ("frukt" ++ "donet" ++ " " ++ "i" ++ " " ++ "don" ++ "frukten") :=
  example_snusk_branches initial_db "don" "donet" 0 0
    ⟨"frukt", "frukten", 0⟩ ⟨"i", 0⟩ (by decide) (by decide)

/-! ### C8: `directed_snusk` and the target substring -/

example : contains_str "raek" "fruktraekern i fruktfrukten" = true := by
  decide

/-- C8 counterexample: on the seeded store, the random outcome that picks
slot index 1 makes `directed_snusk "raek"` return
`"fruktraekern i fruktfrukten"`, which contains BOTH the literal substring
`"raek"` and the literal substring `"raekern"` — the claim's "never both"
fails (any occurrence of `"raekern"` contains `"raek"`). -/
theorem directed_snusk_both_substrings :
    directed_snusk initial_db "raek" 0 0 1 =
      some "fruktraekern i fruktfrukten" ∧
    contains_str "raek" "fruktraekern i fruktfrukten" = true ∧
    contains_str "raekern" "fruktraekern i fruktfrukten" = true := by
  refine ⟨?_, by decide, by decide⟩
  rfl

/-- A list starts with itself followed by anything. -/
theorem starts_with_self_append (l r : List Char) :
    starts_with l (l ++ r) = true := by
  induction l with
  | nil => rfl
  | cons a as ih => simp [starts_with, ih]

/-- A leading occurrence is an occurrence. -/
theorem has_sub_of_starts_with (n l : List Char)
    (h : starts_with n l = true) : has_sub n l = true := by
  cases l with
  | nil => exact h
  | cons b bs => rw [has_sub, h, Bool.true_or]

/-- Occurrences survive extension on the left by one character. -/
theorem has_sub_cons (n : List Char) (c : Char) (l : List Char)
    (h : has_sub n l = true) : has_sub n (c :: l) = true := by
  rw [has_sub, h, Bool.or_true]

/-- Occurrences survive extension on the left. -/
theorem has_sub_append_left (n x l : List Char)
    (h : has_sub n l = true) : has_sub n (x ++ l) = true := by
  induction x with
  | nil => exact h
  | cons a as ih => exact has_sub_cons n a (as ++ l) ih

/-- A string whose character data splits around `t` contains `t`. -/
theorem contains_str_of_data (t out : String) (x y : List Char)
    (h : out.data = x ++ (t.data ++ y)) : contains_str t out = true := by
  rw [contains_str, h]
  exact has_sub_append_left t.data x (t.data ++ y)
    (has_sub_of_starts_with t.data (t.data ++ y)
      (starts_with_self_append t.data y))

/-- C8 (amended): on a successful draw `[p, s, c, p, s]`,
`directed_snusk target` overwrites exactly the one slot selected from
`{0, 1, 3, 4}` — with `target` verbatim for indices 0 and 3, and with
`target ++ "ern"` for indices 1 and 4 — leaves the remaining three
template slots at their drawn store values, and in every case the output
contains `target` as a literal substring (inside `target ++ "ern"` for
indices 1 and 4, so an output may contain both `target` and
`target ++ "ern"`). -/
theorem directed_snusk_slots (db : SnuskDb) (target : String) (ni ci : Nat)
    (n : Noun) (c : Inbetweeny)
    (hn : (eligibleNouns db).get? ni = some n)
    (hc : (eligibleInbetweenies db).get? ci = some c) :
    directed_snusk db target ni ci 0 =
      some (target ++ n.suffix ++ " " ++ c.inbetweeny ++ " " ++
        n.pre ++ n.suffix) ∧
    directed_snusk db target ni ci 1 =
      some (n.pre ++ (target ++ "ern") ++ " " ++ c.inbetweeny ++ " " ++
        n.pre ++ n.suffix) ∧
    directed_snusk db target ni ci 2 =
      some (n.pre ++ n.suffix ++ " " ++ c.inbetweeny ++ " " ++
        target ++ n.suffix) ∧
    directed_snusk db target ni ci 3 =
      some (n.pre ++ n.suffix ++ " " ++ c.inbetweeny ++ " " ++
        n.pre ++ (target ++ "ern")) ∧
    (∀ k : Fin 4, ∀ out, directed_snusk db target ni ci k = some out →
      contains_str target out = true) := by
  have hp : random_parts db ni ci =
      some [n.pre, n.suffix, c.inbetweeny, n.pre, n.suffix] := by
    rw [random_parts, hn, hc]
  refine ⟨?_, ?_, ?_, ?_, ?_⟩
  · rw [directed_snusk, hp]; rfl
  · rw [directed_snusk, hp]; rfl
  · rw [directed_snusk, hp]; rfl
  · rw [directed_snusk, hp]; rfl
  · intro k out h
    match k with
    | ⟨0, _⟩ =>
      rw [directed_snusk, hp] at h
      injection h with h
      rw [← h]
      refine contains_str_of_data target _ []
        (n.suffix.data ++ (" " : String).data ++ c.inbetweeny.data ++
          (" " : String).data ++ n.pre.data ++ n.suffix.data) ?_
      show (target ++ n.suffix ++ " " ++ c.inbetweeny ++ " " ++
        n.pre ++ n.suffix).data = _
      simp [String.data_append]
    | ⟨1, _⟩ =>
      rw [directed_snusk, hp] at h
      injection h with h
      rw [← h]
      refine contains_str_of_data target _ n.pre.data
        (("ern" : String).data ++ (" " : String).data ++
          c.inbetweeny.data ++ (" " : String).data ++ n.pre.data ++
          n.suffix.data) ?_
      show (n.pre ++ (target ++ "ern") ++ " " ++ c.inbetweeny ++ " " ++
        n.pre ++ n.suffix).data = _
      simp [String.data_append]
    | ⟨2, _⟩ =>
      rw [directed_snusk, hp] at h
      injection h with h
      rw [← h]
      refine contains_str_of_data target _
        (n.pre.data ++ n.suffix.data ++ (" " : String).data ++
          c.inbetweeny.data ++ (" " : String).data)
        (n.suffix.data) ?_
      show (n.pre ++ n.suffix ++ " " ++ c.inbetweeny ++ " " ++
        target ++ n.suffix).data = _
      simp [String.data_append]
    | ⟨3, _⟩ =>
      rw [directed_snusk, hp] at h
      injection h with h
      rw [← h]
      refine contains_str_of_data target _
        (n.pre.data ++ n.suffix.data ++ (" " : String).data ++
          c.inbetweeny.data ++ (" " : String).data ++ n.pre.data)
        (("ern" : String).data) ?_
      show (n.pre ++ n.suffix ++ " " ++ c.inbetweeny ++ " " ++
        n.pre ++ (target ++ "ern")).data = _
      simp [String.data_append]

/-- Witness for `directed_snusk_slots`: the seeded store with target
`"raek"`. -/
theorem directed_snusk_slots_witness :
    directed_snusk initial_db "raek" 0 0 0 =
      some ("raek" ++ "frukten" ++ " " ++ "i" ++ " " ++
        "frukt" ++ "frukten") ∧
    contains_str "raek" "fruktraekern i fruktfrukten" = true :=
  ⟨(directed_snusk_slots initial_db "raek" 0 0 ⟨"frukt", "frukten", 0⟩
      ⟨"i", 0⟩ (by decide) (by decide)).1,
   (directed_snusk_slots initial_db "raek" 0 0 ⟨"frukt", "frukten", 0⟩
      ⟨"i", 0⟩ (by decide) (by decide)).2.2.2.2 1
      "fruktraekern i fruktfrukten" (by decide)⟩

/-! ### C9: `find_noun` matches -/

/-- C9 counterexample: in `db3` — reachable via `add_noun` calls, all of
which return `true` — `find_noun "w"` returns three matches, refuting the
claim that the returned list has 0, 1, or 2 elements. -/
theorem find_noun_three_matches :
    (add_noun initial_db "w" "a").2 = true ∧
    (add_noun (add_noun initial_db "w" "a").1 "w" "b").2 = true ∧
    (add_noun (add_noun (add_noun initial_db "w" "a").1 "w" "b").1
      "w" "c").2 = true ∧
    find_noun db3 "w" = [("w", "a"), ("w", "b"), ("w", "c")] ∧
    (find_noun db3 "w").length = 3 := by
  refine ⟨by decide, by decide, by decide, by decide, by decide⟩

/-- C9 (amended): `find_noun w` returns exactly the stored noun fragments
whose prefix or suffix equals `w`; the number of matches is bounded only by
the number of stored fragments (it can exceed 2, since uniqueness is on
the whole pair, not on the individual columns). -/
theorem find_noun_mem (db : SnuskDb) (w p s : String) :
    (p, s) ∈ find_noun db w ↔
      ((∃ sc : Int, (⟨p, s, sc⟩ : Noun) ∈ db.nouns) ∧ (p = w ∨ s = w)) := by
  rw [find_noun]
  constructor
  · intro h
    obtain ⟨n, hmem, hpair⟩ := List.mem_map.mp h
    obtain ⟨hdb, hcond⟩ := List.mem_filter.mp hmem
    obtain ⟨hp, hs⟩ := Prod.mk.inj hpair.symm
    constructor
    · exact ⟨n.score, by rw [hp, hs]; exact hdb⟩
    · have hb : n.pre = w ∨ n.suffix = w := by simpa using hcond
      rcases hb with h' | h'
      · left; rw [hp]; exact h'
      · right; rw [hs]; exact h'
  · intro ⟨⟨sc, hmem⟩, hcond⟩
    refine List.mem_map.mpr ⟨⟨p, s, sc⟩, List.mem_filter.mpr ⟨hmem, ?_⟩, rfl⟩
    rcases hcond with h' | h' <;> simp [h']
